import Mathlib

/-!
# Verification of the mesh-tensorflow block-local attention subsystem

Shallow embedding of the block-partitioned local attention, halo-exchange,
incremental-decode and relative-position-bucket code of
`mesh_tensorflow/layers.py` and
`mesh_tensorflow/transformer/transformer_layers.py`.

Tensors are modelled as total functions from natural-number indices to real
numbers; all `einsum` contractions become explicit finite sums, float
arithmetic becomes exact real arithmetic, and the external mesh primitives
(`left_halo_exchange`, `softmax`, `one_hot`, `pad`) are modelled from the
specification of their interface, as the spec directs.
-/

namespace MeshAttention

/-! ## Block partitioner (`masked_local_attention_1d`, lines 878-891)

The source chooses the block length with the loop

    block_length = max(window_size, 128)
    while length_per_split % block_length != 0:
      block_length -= 1
-/

/-- The decrementing search of the source's `while` loop: starting from `b`,
return the first value (counting down) that divides `S` (`S % b == 0`). -/
def chooseBlockLengthAux (S : ℕ) : ℕ → ℕ
  | 0 => 0
  | b + 1 => if S % (b + 1) = 0 then b + 1 else chooseBlockLengthAux S b

/-- Block length selection of `masked_local_attention_1d`: the loop starts at
`max(window_size, 128)` and decrements until it divides `length_per_split`. -/
def chooseBlockLength (windowSize lengthPerSplit : ℕ) : ℕ :=
  chooseBlockLengthAux lengthPerSplit (max windowSize 128)

/-! ## Shape-level model of `multihead_attention` (lines 1227-1256)

`mtf.Dimension` is a (name, size) pair compared by value.  Only the
shape-checking prefix of `multihead_attention` decides claim C8; the model
returns the output shape on success and the `ValueError` message otherwise. -/

/-- A `mtf.Dimension`: a named, sized axis, equality by both components. -/
structure TDim where
  name : String
  size : ℕ
deriving DecidableEq, Repr

/-- Python slice `dims[-2:]`. -/
def lastTwo (l : List TDim) : List TDim := l.drop (l.length - 2)

/-- Python slice `dims[:-2]`. -/
def dropLastTwo (l : List TDim) : List TDim := l.take (l.length - 2)

/-- Shape-level model of `multihead_attention`.  `memoryAntecedent = none`
models the Python `None` default, in which case the query is renamed:
its length dimension becomes `"memory_length"` (same size).  The two
`raise ValueError` statements are the only error paths; on success the
function constructs the attention graph and returns a tensor of shape
`batch_dims + [query_length, io_channels]`. -/
def multiheadAttention (queryShape : List TDim) (memoryAntecedent : Option (List TDim)) :
    Except String (List TDim) :=
  let batchDims := dropLastTwo queryShape
  match lastTwo queryShape with
  | [queryLength, ioChannels] =>
    let memoryShape := match memoryAntecedent with
      | none => batchDims ++ [⟨"memory_length", queryLength.size⟩, ioChannels]
      | some m => m
    match lastTwo memoryShape with
    | [_memoryLength, memoryChannels] =>
      if dropLastTwo memoryShape ≠ batchDims then
        Except.error "memory batch must equal query batch"
      else if memoryChannels ≠ ioChannels then
        Except.error "memory channels must equal query channels"
      else
        Except.ok (batchDims ++ [queryLength, ioChannels])
    | _ => Except.error "not enough dimensions to unpack"
  | _ => Except.error "not enough dimensions to unpack"

/-! ## Real-valued tensor model

A tensor is a total function from natural-number indices to `ℝ`; indices
outside the advertised ranges carry irrelevant junk values.  Projection
weights have index order `(head, io_channel, kv_channel)`, matching the
`[heads, io_channels, kv_channels]` shape of `multihead_attention_params`. -/

/-- Modelled from the spec: the `einsum` contraction of an input vector with a
projection weight over the `io_channels` axis, producing `(head, kv_channel)`
entries.  `C` is the size of the contracted `io_channels` dimension. -/
noncomputable def projVec (C : ℕ) (x : ℕ → ℝ) (w : ℕ → ℕ → ℕ → ℝ) : ℕ → ℕ → ℝ :=
  fun h d => ∑ c ∈ Finset.range C, x c * w h c d

/-- The per-position q/k/v projection of a whole sequence `x` (index order
`head, position, kv_channel`), as computed by the `mtf.einsum([x, w], ...)`
calls of `masked_local_attention_1d`. -/
noncomputable def projSeq (C : ℕ) (x : ℕ → ℕ → ℝ) (w : ℕ → ℕ → ℕ → ℝ) :
    ℕ → ℕ → ℕ → ℝ :=
  fun h t d => projVec C (x t) w h d

/-- Modelled from the spec: `mtf.softmax` over an axis of size `n`
(the numerically-stable log-sum-exp form equals this exact form). -/
noncomputable def softmax (n : ℕ) (l : ℕ → ℝ) (j : ℕ) : ℝ :=
  Real.exp (l j) / ∑ i ∈ Finset.range n, Real.exp (l i)

/-- The softmax-weighted combination of values shared by all attention
variants: `weights = softmax(logits)`, `output = einsum([weights, v])`. -/
noncomputable def attnFromLogits (Lkv : ℕ) (logits : ℕ → ℕ → ℝ) (v : ℕ → ℕ → ℝ) :
    ℕ → ℕ → ℝ :=
  fun t dv => ∑ j ∈ Finset.range Lkv, softmax Lkv (logits t) j * v j dv

/-- `dot_product_attention` (layers.py lines 1150-1187) with
`dropout = 0` and `extra_logit = None`: `logits = einsum([q, k]) + mask`,
`weights = softmax(logits)`, `output = einsum([weights, v])`.  A `mask` of
constantly `0` models the Python `mask=None`.  `Lkv` is the size of the
memory axis and `K` the size of the contracted depth axis. -/
noncomputable def dotProductAttention (Lkv K : ℕ) (q k v : ℕ → ℕ → ℝ)
    (mask : ℕ → ℕ → ℝ) : ℕ → ℕ → ℝ :=
  attnFromLogits Lkv
    (fun t j => (∑ d ∈ Finset.range K, q t d * k j d) + mask t j) v

/-- Modelled from the spec: the textbook scaled dot-product attention that the
name "multihead scaled-dot-product attention" suggests, with logits divided
by `sqrt(depth_k)`.  Used only to compare against `dotProductAttention`. -/
noncomputable def scaledDotProductAttention (Lkv K : ℕ) (q k v : ℕ → ℕ → ℝ)
    (mask : ℕ → ℕ → ℝ) : ℕ → ℕ → ℝ :=
  attnFromLogits Lkv
    (fun t j => (∑ d ∈ Finset.range K, q t d * k j d) / Real.sqrt K + mask t j) v

/-- Modelled from the spec: hard-masking idealization of
`dot_product_attention`, in which positions excluded by the visibility
predicate are removed from the softmax altogether instead of receiving the
large negative additive bias `-1e9`.  Used only as the comparison point of the
incremental-vs-batch refinement claim. -/
noncomputable def dotProductAttentionHard (Lkv K : ℕ) (q k v : ℕ → ℕ → ℝ)
    (vis : ℕ → ℕ → Bool) : ℕ → ℕ → ℝ :=
  fun t dv =>
    ∑ j ∈ (Finset.range Lkv).filter (fun j => vis t j),
      (Real.exp (∑ d ∈ Finset.range K, q t d * k j d) /
        ∑ i ∈ (Finset.range Lkv).filter (fun j => vis t j),
          Real.exp (∑ d ∈ Finset.range K, q t d * k i d)) * v j dv

/-- The initializer standard deviation of the query and key projection
weights in `multihead_attention_params` (line 1123):
`qk_stddev = io_channels**-0.5 * kv_channels**-0.25`. -/
noncomputable def qkStddev (ioChannels kvChannels : ℕ) : ℝ :=
  (ioChannels : ℝ) ^ (-(0.5 : ℝ)) * (kvChannels : ℝ) ^ (-(0.25 : ℝ))

/-- The initializer standard deviation of the value projection weights in
`multihead_attention_params` (line 1124): `v_stddev = io_channels**-0.5`. -/
noncomputable def vStddev (ioChannels : ℕ) : ℝ :=
  (ioChannels : ℝ) ^ (-(0.5 : ℝ))

/-! ## Batch local attention (`masked_local_attention_1d`, lines 823-915) -/

/-- Modelled from the spec: `mtf.left_halo_exchange` on a block-partitioned
sequence with halo size `W`.  Block `B` of size `b` is augmented on the left
with the `W` previous elements of the sequence; out-of-range neighbour data at
the sequence start is zero-filled, never wrapped.  Index `j` ranges over the
augmented width `W + b`, so position `j` of block `B` holds sequence element
`B*b + j - W` (zero when that would be negative). -/
noncomputable def leftHaloExchange (b W : ℕ) (k : ℕ → ℝ) : ℕ → ℕ → ℝ :=
  fun B j => if B * b + j < W then 0 else k (B * b + j - W)

/-- The additive attention mask of `masked_local_attention_1d`
(lines 904-909), for block length `b` and window size `W`:
`qpos = i + W`, `mpos = j`; looking forward (`j > i + W`) and looking
`>= block_length` steps backward (`j <= i + W - b`) each add `-1e9`. -/
noncomputable def localAttentionMask (b W : ℕ) (i j : ℕ) : ℝ :=
  (if (i : ℤ) + W < j then (-1e9 : ℝ) else 0) +
    (if (j : ℤ) ≤ (i : ℤ) + W - b then (-1e9 : ℝ) else 0)

/-- The visibility predicate corresponding to `localAttentionMask`: position
`j` of the augmented memory block receives no `-1e9` term exactly when
`i + W - b < j ≤ i + W`. -/
def localVis (b W : ℕ) (i j : ℕ) : Bool :=
  decide ((i : ℤ) + W - b < j ∧ (j : ℤ) ≤ (i : ℤ) + W)

/-- `masked_local_attention_1d` (lines 823-915) with the four projection
weights supplied through `params`.  `C` = io_channels size, `K` = kv_channels
size, `H` = heads size, `W` = window_size, `L` = length, `S` =
length_per_split (the Python default `None` corresponds to `S = L`).
The length axis is reshaped into `(num_blocks, block_length)` blocks with
`block_length = chooseBlockLength W S`; position `t` lives in block `t / b`
at offset `t % b`, keys and values are left-halo-augmented by `W`, and
`dot_product_attention` runs per block with `localAttentionMask`. -/
noncomputable def maskedLocalAttention1d (C K H W L S : ℕ) (x : ℕ → ℕ → ℝ)
    (wq wk wv wo : ℕ → ℕ → ℕ → ℝ) : ℕ → ℕ → ℝ :=
  fun t c =>
    ∑ h ∈ Finset.range H, ∑ d ∈ Finset.range K,
      dotProductAttention (W + chooseBlockLength W S) K
        (fun i d' =>
          projSeq C x wq h (t / chooseBlockLength W S * chooseBlockLength W S + i) d')
        (fun j d' =>
          leftHaloExchange (chooseBlockLength W S) W
            (fun s => projSeq C x wk h s d') (t / chooseBlockLength W S) j)
        (fun j d' =>
          leftHaloExchange (chooseBlockLength W S) W
            (fun s => projSeq C x wv h s d') (t / chooseBlockLength W S) j)
        (localAttentionMask (chooseBlockLength W S) W)
        (t % chooseBlockLength W S) d * wo h c d

/-- Modelled from the spec: `maskedLocalAttention1d` with the `-1e9` additive
bias idealized as hard masking (`dotProductAttentionHard` with `localVis`).
Identical to `maskedLocalAttention1d` in every other respect. -/
noncomputable def maskedLocalAttention1dHard (C K H W L S : ℕ) (x : ℕ → ℕ → ℝ)
    (wq wk wv wo : ℕ → ℕ → ℕ → ℝ) : ℕ → ℕ → ℝ :=
  fun t c =>
    ∑ h ∈ Finset.range H, ∑ d ∈ Finset.range K,
      dotProductAttentionHard (W + chooseBlockLength W S) K
        (fun i d' =>
          projSeq C x wq h (t / chooseBlockLength W S * chooseBlockLength W S + i) d')
        (fun j d' =>
          leftHaloExchange (chooseBlockLength W S) W
            (fun s => projSeq C x wk h s d') (t / chooseBlockLength W S) j)
        (fun j d' =>
          leftHaloExchange (chooseBlockLength W S) W
            (fun s => projSeq C x wv h s d') (t / chooseBlockLength W S) j)
        (localVis (chooseBlockLength W S) W)
        (t % chooseBlockLength W S) d * wo h c d

/-! ## Incremental local attention
(`masked_local_attention_1d_incremental`, lines 918-972) -/

/-- The key/value state blend of `masked_local_attention_1d_incremental`
(lines 965-969): `mtf.where(range(window_length) == step_num % window_length,
fresh, prev)` writes the fresh projection of the current token into window
slot `t % n` and carries every other slot over. -/
noncomputable def incStepKV (C n : ℕ) (xt : ℕ → ℝ) (prev : ℕ → ℕ → ℕ → ℝ)
    (t : ℕ) (w : ℕ → ℕ → ℕ → ℝ) : ℕ → ℕ → ℕ → ℝ :=
  fun h p d => if p = t % n then projVec C xt w h d else prev h p d

/-- `masked_local_attention_1d_incremental` (lines 918-972): one decode step.
Returns `(y, new_k, new_v)`.  The query of the single new token attends over
the blended window with `mask = None` (modelled as the zero mask).  `n` is the
window_length. -/
noncomputable def maskedLocalAttention1dIncremental (C K H n : ℕ) (xt : ℕ → ℝ)
    (prevK prevV : ℕ → ℕ → ℕ → ℝ) (t : ℕ) (wq wk wv wo : ℕ → ℕ → ℕ → ℝ) :
    (ℕ → ℝ) × (ℕ → ℕ → ℕ → ℝ) × (ℕ → ℕ → ℕ → ℝ) :=
  ((fun c =>
      ∑ h ∈ Finset.range H, ∑ d ∈ Finset.range K,
        dotProductAttention n K
          (fun _ d' => projVec C xt wq h d')
          (fun p d' => incStepKV C n xt prevK t wk h p d')
          (fun p d' => incStepKV C n xt prevV t wv h p d')
          (fun _ _ => 0) 0 d * wo h c d),
    incStepKV C n xt prevK t wk,
    incStepKV C n xt prevV t wv)

/-- The rolling key (or value) window obtained by threading the state returned
by the incremental step through decode steps `0, 1, ..., t-1`, starting from
the zero-initialized state. -/
noncomputable def incState (C n : ℕ) (x : ℕ → ℕ → ℝ) (w : ℕ → ℕ → ℕ → ℝ) :
    ℕ → ℕ → ℕ → ℕ → ℝ
  | 0 => fun _ _ _ => 0
  | t + 1 => incStepKV C n (x t) (incState C n x w t) t w

/-- The output of decode step `t` when `masked_local_attention_1d_incremental`
is run sequentially on the sequence `x` from the zero-initialized state. -/
noncomputable def incrementalDecode (C K H n : ℕ) (x : ℕ → ℕ → ℝ)
    (wq wk wv wo : ℕ → ℕ → ℕ → ℝ) (t : ℕ) : ℕ → ℝ :=
  (maskedLocalAttention1dIncremental C K H n (x t)
    (incState C n x wk t) (incState C n x wv t) t wq wk wv wo).1

/-! ## Block-local bias (`attention_bias_local_block`, lines 1403-1429) -/

/-- `attention_bias_local_block`: the memory axis is first truncated to the
block length `b`, an all-zero `[b, b]` mask covers the borrowed left half, a
`range(b) < range(b)` comparison covers the block's own half, and the
concatenation (memory axis width `2b`) is scaled by `-1e9`. -/
noncomputable def attentionBiasLocalBlock (b : ℕ) (i j : ℕ) : ℝ :=
  (if j < b then 0 else if i < j - b then 1 else 0) * (-1e9 : ℝ)

/-! ## Additive-cache incremental self-attention
(`multihead_self_attention_incremental`, lines 1259-1320) -/

/-- Modelled from the spec: `mtf.one_hot(step_num, memory_length)` restricted
to slots `p < memory_length`; an out-of-range `step_num` hits no slot. -/
noncomputable def oneHot (i p : ℕ) : ℝ := if p = i then 1 else 0

/-- The additive key/value cache update of
`multihead_self_attention_incremental` (lines 1307-1312):
`new = prev + fresh * one_hot(step_num, memory_length)`. -/
noncomputable def mhsaStepKV (C : ℕ) (xt : ℕ → ℝ) (prev : ℕ → ℕ → ℕ → ℝ)
    (step : ℕ) (w : ℕ → ℕ → ℕ → ℝ) : ℕ → ℕ → ℕ → ℝ :=
  fun h p d => prev h p d + projVec C xt w h d * oneHot step p

/-- `multihead_self_attention_incremental` (lines 1259-1320): one decode step
with the full-history additive cache of width `n = memory_length` and the
`position > step_num` mask. -/
noncomputable def multiheadSelfAttentionIncremental (C K H n : ℕ) (xt : ℕ → ℝ)
    (prevK prevV : ℕ → ℕ → ℕ → ℝ) (step : ℕ) (wq wk wv wo : ℕ → ℕ → ℕ → ℝ) :
    (ℕ → ℝ) × (ℕ → ℕ → ℕ → ℝ) × (ℕ → ℕ → ℕ → ℝ) :=
  ((fun c =>
      ∑ h ∈ Finset.range H, ∑ d ∈ Finset.range K,
        dotProductAttention n K
          (fun _ d' => projVec C xt wq h d')
          (fun p d' => mhsaStepKV C xt prevK step wk h p d')
          (fun p d' => mhsaStepKV C xt prevV step wv h p d')
          (fun _ j => if (step : ℤ) < j then (-1e9 : ℝ) else 0) 0 d * wo h c d),
    mhsaStepKV C xt prevK step wk,
    mhsaStepKV C xt prevV step wv)

/-! ## Relative position bucketing
(`_relative_position_bucket`, transformer_layers.py lines 593-635) -/

/-- `mtf.to_int32` on a float value: truncation toward zero. -/
noncomputable def toInt32 (x : ℝ) : ℤ := if 0 ≤ x then ⌊x⌋ else ⌈x⌉

/-- The float value inside the `to_int32` of the logarithmic branch of
`_relative_position_bucket` (lines 630-632):
`log(n / max_exact) / log(max_distance / max_exact) *
(num_buckets - max_exact)`, over exact reals.

Caveat: when `max_exact = 0` (bidirectional mode with `num_buckets < 4`) the
source raises `ZeroDivisionError` at `math.log(max_distance / max_exact)`
during graph construction; Lean's division-by-zero-is-zero convention gives
this model a junk value `0` there instead, so every theorem about the bucket
function requires `1 ≤ max_exact` and never relies on that region. -/
noncomputable def bucketLogTerm (n : ℤ) (nb me md : ℕ) : ℝ :=
  Real.log ((n : ℝ) / me) / Real.log ((md : ℝ) / me) * ((nb : ℤ) - (me : ℤ))

/-- The logarithmic branch of `_relative_position_bucket` (lines 630-633):
`min(max_exact + to_int32(bucketLogTerm), num_buckets - 1)`. -/
noncomputable def bucketValIfLarge (n : ℤ) (nb me md : ℕ) : ℤ :=
  min ((me : ℤ) + toInt32 (bucketLogTerm n nb me md)) ((nb : ℤ) - 1)

/-- The common tail of `_relative_position_bucket` once `n` has been made
non-negative: `max_exact = num_buckets // 2`, offsets with `n < max_exact`
are bucketed linearly (`ret += where(is_small, n, val_if_large)`), larger
ones through the logarithmic branch. -/
noncomputable def bucketNonneg (n : ℤ) (nb md : ℕ) : ℤ :=
  if n < ((nb / 2 : ℕ) : ℤ) then n else bucketValIfLarge n nb (nb / 2) md

/-- `_relative_position_bucket` (lines 593-635).  `n = -relative_position`;
in bidirectional mode the bucket count is halved, `to_int32(less(n, 0)) *
num_buckets` reserves the upper half for `n < 0` and `n` is replaced by
`abs(n)`; in unidirectional mode `n` is clamped to `maximum(n, 0)`. -/
noncomputable def relativePositionBucket (relativePosition : ℤ)
    (bidirectional : Bool) (numBuckets maxDistance : ℕ) : ℤ :=
  if bidirectional then
    (if -relativePosition < 0 then ((numBuckets / 2 : ℕ) : ℤ) else 0) +
      bucketNonneg |(-relativePosition)| (numBuckets / 2) maxDistance
  else
    bucketNonneg (max (-relativePosition) 0) numBuckets maxDistance

/-! ## Helper lemmas -/

theorem chooseBlockLengthAux_spec (S : ℕ) (hS : 0 < S) :
    ∀ b, 1 ≤ b → 0 < chooseBlockLengthAux S b ∧ S % chooseBlockLengthAux S b = 0 ∧
      chooseBlockLengthAux S b ≤ b ∧
      ∀ b', b' ≤ b → S % b' = 0 → b' ≤ chooseBlockLengthAux S b := by
  intro b
  induction b with
  | zero => omega
  | succ b ih =>
    intro _
    by_cases hdiv : S % (b + 1) = 0
    · refine ⟨?_, ?_, ?_, ?_⟩ <;> simp only [chooseBlockLengthAux, if_pos hdiv]
      · omega
      · exact hdiv
      · exact le_refl _
      · intro b' hb' _; exact hb'
    · rcases Nat.eq_zero_or_pos b with hb0 | hb1
      · subst hb0
        exact absurd (Nat.mod_one S) hdiv
      · obtain ⟨h1, h2, h3, h4⟩ := ih hb1
        refine ⟨?_, ?_, ?_, ?_⟩ <;> simp only [chooseBlockLengthAux, if_neg hdiv]
        · exact h1
        · exact h2
        · omega
        · intro b' hb' hmod
          rcases Nat.lt_or_ge b' (b + 1) with hlt | hge
          · exact h4 b' (by omega) hmod
          · have hbeq : b' = b + 1 := by omega
            rw [hbeq] at hmod
            exact absurd hmod hdiv

theorem lastTwo_append (l : List TDim) (a b : TDim) : lastTwo (l ++ [a, b]) = [a, b] := by
  unfold lastTwo
  have hlen : (l ++ [a, b]).length - 2 = l.length := by simp
  rw [hlen, List.drop_left]

theorem dropLastTwo_append (l : List TDim) (a b : TDim) : dropLastTwo (l ++ [a, b]) = l := by
  unfold dropLastTwo
  have hlen : (l ++ [a, b]).length - 2 = l.length := by simp
  rw [hlen, List.take_left]

/-! ## Claim theorems -/

/-- C2: for positive `L`, `W`, `S` with `S` dividing `L`, the block-length
selection of `masked_local_attention_1d` returns the largest `b ≤ max(W, 128)`
with `S % b = 0`, the resulting `num_blocks * block_length` recovers `L`, and
the search always lands on a positive block length (the degenerate case
`b = 1` included), so no error can arise. -/
theorem c2_choose_block_length_correct (L W S : ℕ) (hL : 0 < L) (hW : 0 < W)
    (hS : 0 < S) (hdvd : S ∣ L) :
    0 < chooseBlockLength W S ∧
    S % chooseBlockLength W S = 0 ∧
    chooseBlockLength W S ≤ max W 128 ∧
    (∀ b', b' ≤ max W 128 → S % b' = 0 → b' ≤ chooseBlockLength W S) ∧
    L / chooseBlockLength W S * chooseBlockLength W S = L := by
  obtain ⟨h1, h2, h3, h4⟩ := chooseBlockLengthAux_spec S hS (max W 128) (by omega)
  refine ⟨h1, h2, h3, h4, ?_⟩
  have hdvd' : chooseBlockLength W S ∣ L :=
    dvd_trans (Nat.dvd_of_mod_eq_zero h2) hdvd
  exact Nat.div_mul_cancel hdvd'

/-- Witness for C2 at `L = 256`, `W = 100`, `S = 128`. -/
theorem c2_witness :
    0 < chooseBlockLength 100 128 ∧
    128 % chooseBlockLength 100 128 = 0 ∧
    chooseBlockLength 100 128 ≤ max 100 128 ∧
    (∀ b', b' ≤ max 100 128 → 128 % b' = 0 → b' ≤ chooseBlockLength 100 128) ∧
    256 / chooseBlockLength 100 128 * chooseBlockLength 100 128 = 256 :=
  c2_choose_block_length_correct 256 100 128 (by norm_num) (by norm_num)
    (by norm_num) (by norm_num)

/-- C8: `multihead_attention` raises `ValueError` exactly when the memory
antecedent's batch dimensions differ from the query's batch dimensions or the
memory channel dimension differs from the query `io_channels` dimension; on
matching shapes it returns the attention output (of shape
`batch_dims + [query_length, io_channels]`) without error. -/
theorem c8_multihead_attention_error_iff (qb : List TDim) (ql ioc : TDim)
    (mb : List TDim) (ml mc : TDim) :
    ((∃ msg, multiheadAttention (qb ++ [ql, ioc]) (some (mb ++ [ml, mc]))
        = Except.error msg) ↔ (mb ≠ qb ∨ mc ≠ ioc)) ∧
    (mb = qb → mc = ioc →
      multiheadAttention (qb ++ [ql, ioc]) (some (mb ++ [ml, mc]))
        = Except.ok (qb ++ [ql, ioc])) := by
  have hq : lastTwo (qb ++ [ql, ioc]) = [ql, ioc] := lastTwo_append qb ql ioc
  have hq' : dropLastTwo (qb ++ [ql, ioc]) = qb := dropLastTwo_append qb ql ioc
  have hm : lastTwo (mb ++ [ml, mc]) = [ml, mc] := lastTwo_append mb ml mc
  have hm' : dropLastTwo (mb ++ [ml, mc]) = mb := dropLastTwo_append mb ml mc
  by_cases hb : mb = qb
  · by_cases hc : mc = ioc
    · subst hb; subst hc
      simp [multiheadAttention, hq, hq', hm, hm']
    · subst hb
      simp [multiheadAttention, hq, hq', hm, hm', hc]
  · simp [multiheadAttention, hq, hq', hm, hm', hb]

/-- Witness for C8: a matching and a mismatching concrete configuration. -/
theorem c8_witness :
    multiheadAttention
        ([⟨"batch", 2⟩] ++ [⟨"length", 3⟩, ⟨"io", 8⟩])
        (some ([⟨"batch", 2⟩] ++ [⟨"memory_length", 5⟩, ⟨"io", 8⟩]))
      = Except.ok ([⟨"batch", 2⟩] ++ [⟨"length", 3⟩, ⟨"io", 8⟩]) :=
  (c8_multihead_attention_error_iff [⟨"batch", 2⟩] ⟨"length", 3⟩ ⟨"io", 8⟩
    [⟨"batch", 2⟩] ⟨"memory_length", 5⟩ ⟨"io", 8⟩).2 rfl rfl

/-- C3: the block-local causal bias of `attention_bias_local_block` (with the
halo size equal to the block length `b`, as in
`local_self_attention_spatial_blocks`) is `0` exactly on the augmented-memory
positions `j ≤ i + b` — the whole borrowed left half plus the own half up to
and including the diagonal — and `-1e9` exactly beyond. -/
theorem c3_local_block_bias_visibility (b i j : ℕ) (hi : i < b) (hj : j < 2 * b) :
    (attentionBiasLocalBlock b i j = 0 ↔ j ≤ i + b) ∧
    (attentionBiasLocalBlock b i j = (-1e9 : ℝ) ↔ i + b < j) := by
  unfold attentionBiasLocalBlock
  by_cases h1 : j < b
  · rw [if_pos h1]
    constructor
    · constructor
      · intro _; omega
      · intro _; norm_num
    · constructor
      · intro hcontra; norm_num at hcontra
      · intro hcontra; omega
  · rw [if_neg h1]
    by_cases h2 : i < j - b
    · rw [if_pos h2]
      constructor
      · constructor
        · intro hcontra; norm_num at hcontra
        · intro hcontra; omega
      · constructor
        · intro _; omega
        · intro _; norm_num
    · rw [if_neg h2]
      constructor
      · constructor
        · intro _; omega
        · intro _; norm_num
      · constructor
        · intro hcontra; norm_num at hcontra
        · intro hcontra; omega

/-- Witness for C3 at `b = 4`, `i = 1`, `j = 5` (diagonal position). -/
theorem c3_witness :
    (attentionBiasLocalBlock 4 1 5 = 0 ↔ 5 ≤ 1 + 4) ∧
    (attentionBiasLocalBlock 4 1 5 = (-1e9 : ℝ) ↔ 1 + 4 < 5) :=
  c3_local_block_bias_visibility 4 1 5 (by norm_num) (by norm_num)

/-- C4 counterexample: in the `masked_local_attention_1d` scenario with
`block_length = 4` and `window_size = 2`, the mask is NOT
"`0` exactly on `j ≤ i + 2`": at query `i = 2`, memory `j = 0` the claim
demands bias `0` but the code's backward-limit term yields `-1e9`. -/
theorem c4_counterexample :
    ¬ ∀ i j : ℕ, i < 4 → j < 6 →
      (((j : ℤ) ≤ (i : ℤ) + 2 → localAttentionMask 4 2 i j = 0) ∧
       ((i : ℤ) + 2 < (j : ℤ) → localAttentionMask 4 2 i j = (-1e9 : ℝ))) := by
  intro hclaim
  have h20 : localAttentionMask 4 2 2 0 = 0 :=
    (hclaim 2 0 (by norm_num) (by norm_num)).1 (by norm_num)
  have hval : localAttentionMask 4 2 2 0 = (-1e9 : ℝ) := by
    unfold localAttentionMask
    norm_num
  rw [hval] at h20
  norm_num at h20

/-- C4 (amended): in the scenario `L = 8`, `block_length = 4`, `radius = 2`
(which the partitioner realizes with `length_per_split = 4`), the per-block
mask of `masked_local_attention_1d` gives bias `0` to query `i` and
augmented-memory `j` exactly when `i - 2 < j ≤ i + 2` — the claimed window
`j ≤ i + 2` further clipped to at most `block_length` steps back — and `-1e9`
otherwise; block 0's two-wide left halo is zero-filled and block 1's left
halo holds the tail positions `2, 3` of block 0. -/
theorem c4_block_mask_scenario :
    chooseBlockLength 2 4 = 4 ∧
    (∀ i j : ℕ, i < 4 → j < 6 →
      (localAttentionMask 4 2 i j = 0 ↔
        (i : ℤ) - 2 < (j : ℤ) ∧ (j : ℤ) ≤ (i : ℤ) + 2) ∧
      (localAttentionMask 4 2 i j = (-1e9 : ℝ) ↔
        ¬((i : ℤ) - 2 < (j : ℤ) ∧ (j : ℤ) ≤ (i : ℤ) + 2))) ∧
    (∀ (k : ℕ → ℝ) (j : ℕ), j < 2 →
      leftHaloExchange 4 2 k 0 j = 0 ∧ leftHaloExchange 4 2 k 1 j = k (2 + j)) := by
  refine ⟨by decide, ?_, ?_⟩
  · intro i j _ _
    unfold localAttentionMask
    by_cases h1 : (i : ℤ) + (2 : ℕ) < (j : ℤ)
    · rw [if_pos h1]
      have h2 : ¬((j : ℤ) ≤ (i : ℤ) + (2 : ℕ) - (4 : ℕ)) := by push_cast at h1 ⊢; omega
      rw [if_neg h2]
      constructor
      · constructor
        · intro hcontra; norm_num at hcontra
        · intro hcontra; push_cast at h1; omega
      · constructor
        · intro _; push_cast at h1 ⊢; omega
        · intro _; norm_num
    · rw [if_neg h1]
      by_cases h2 : (j : ℤ) ≤ (i : ℤ) + (2 : ℕ) - (4 : ℕ)
      · rw [if_pos h2]
        constructor
        · constructor
          · intro hcontra; norm_num at hcontra
          · intro hcontra; push_cast at h2; omega
        · constructor
          · intro _; push_cast at h2 ⊢; omega
          · intro _; norm_num
      · rw [if_neg h2]
        constructor
        · constructor
          · intro _; push_cast at h1 h2 ⊢; omega
          · intro _; norm_num
        · constructor
          · intro hcontra; norm_num at hcontra
          · intro hcontra; push_cast at h1 h2 hcontra; omega
  · intro k j hj
    constructor
    · unfold leftHaloExchange
      rw [if_pos (by omega)]
    · unfold leftHaloExchange
      rw [if_neg (by omega)]
      congr 1
      omega

/-- Witness for C4 at `i = 2`, `j = 3`. -/
theorem c4_witness : localAttentionMask 4 2 2 3 = 0 :=
  ((c4_block_mask_scenario.2.1 2 3 (by norm_num) (by norm_num)).1).mpr
    (by norm_num)

/-- C5: one step of `masked_local_attention_1d_incremental` carries every
window slot other than `step_num % window_length` over from `prev_k`/`prev_v`
unchanged, and writes the fresh key/value projection of the input token into
that one slot. -/
theorem c5_incremental_frame_effect (C K H n : ℕ) (xt : ℕ → ℝ)
    (prevK prevV : ℕ → ℕ → ℕ → ℝ) (t : ℕ) (wq wk wv wo : ℕ → ℕ → ℕ → ℝ)
    (h p d : ℕ) :
    (p = t % n →
      (maskedLocalAttention1dIncremental C K H n xt prevK prevV t wq wk wv wo).2.1 h p d
        = projVec C xt wk h d ∧
      (maskedLocalAttention1dIncremental C K H n xt prevK prevV t wq wk wv wo).2.2 h p d
        = projVec C xt wv h d) ∧
    (p ≠ t % n →
      (maskedLocalAttention1dIncremental C K H n xt prevK prevV t wq wk wv wo).2.1 h p d
        = prevK h p d ∧
      (maskedLocalAttention1dIncremental C K H n xt prevK prevV t wq wk wv wo).2.2 h p d
        = prevV h p d) := by
  constructor <;> intro hp <;>
    simp [maskedLocalAttention1dIncremental, incStepKV, hp]

/-- Witness for C5 at `n = 4`, `t = 6` (written slot `6 % 4 = 2`). -/
theorem c5_witness :
    (maskedLocalAttention1dIncremental 1 1 1 4 (fun _ => 1)
        (fun _ _ _ => 5) (fun _ _ _ => 7) 6
        (fun _ _ _ => 1) (fun _ _ _ => 1) (fun _ _ _ => 1) (fun _ _ _ => 1)).2.1 0 3 0
      = 5 :=
  ((c5_incremental_frame_effect 1 1 1 4 (fun _ => 1)
      (fun _ _ _ => 5) (fun _ _ _ => 7) 6
      (fun _ _ _ => 1) (fun _ _ _ => 1) (fun _ _ _ => 1) (fun _ _ _ => 1)
      0 3 0).2 (by norm_num)).1

/-- C10: `multihead_self_attention_incremental` updates its key/value cache
additively: `new = prev + fresh * one_hot(step_num)`, so the written slot
equals the fresh projection exactly when the previous entry there was zero,
repeated writes at the same position accumulate, every other slot is
unchanged, and no modulo wrap is applied — a `step_num ≥ memory_length`
writes no slot at all. -/
theorem c10_additive_kv_update (C K H n : ℕ) (xt x1 x2 : ℕ → ℝ)
    (prevK prevV : ℕ → ℕ → ℕ → ℝ) (step : ℕ) (wq wk wv wo : ℕ → ℕ → ℕ → ℝ) :
    (∀ h p d,
      (multiheadSelfAttentionIncremental C K H n xt prevK prevV step wq wk wv wo).2.1 h p d
        = prevK h p d + projVec C xt wk h d * oneHot step p) ∧
    (∀ h p d,
      (multiheadSelfAttentionIncremental C K H n xt prevK prevV step wq wk wv wo).2.2 h p d
        = prevV h p d + projVec C xt wv h d * oneHot step p) ∧
    (∀ h d,
      (multiheadSelfAttentionIncremental C K H n xt prevK prevV step wq wk wv wo).2.1 h step d
        = projVec C xt wk h d ↔ prevK h step d = 0) ∧
    (∀ h p d, p ≠ step →
      (multiheadSelfAttentionIncremental C K H n xt prevK prevV step wq wk wv wo).2.1 h p d
        = prevK h p d) ∧
    (∀ h d,
      mhsaStepKV C x2 (mhsaStepKV C x1 prevK step wk) step wk h step d
        = prevK h step d + projVec C x1 wk h d + projVec C x2 wk h d) ∧
    (n ≤ step → ∀ h p d, p < n →
      (multiheadSelfAttentionIncremental C K H n xt prevK prevV step wq wk wv wo).2.1 h p d
        = prevK h p d) := by
  refine ⟨?_, ?_, ?_, ?_, ?_, ?_⟩
  · intro h p d; rfl
  · intro h p d; rfl
  · intro h d
    show prevK h step d + projVec C xt wk h d * oneHot step step = _ ↔ _
    simp [oneHot]
  · intro h p d hp
    show prevK h p d + projVec C xt wk h d * oneHot step p = _
    simp [oneHot, hp]
  · intro h d
    simp only [mhsaStepKV, oneHot, eq_self_iff_true, if_true, mul_one, one_mul]
  · intro hstep h p d hp
    have hps : p ≠ step := by omega
    show prevK h p d + projVec C xt wk h d * oneHot step p = _
    simp [oneHot, hps]

/-- Witness for C10 at `n = 4`, `step = 7 ≥ n`: no slot is written. -/
theorem c10_witness :
    (multiheadSelfAttentionIncremental 1 1 1 4 (fun _ => 1)
        (fun _ _ _ => 5) (fun _ _ _ => 7) 7
        (fun _ _ _ => 1) (fun _ _ _ => 1) (fun _ _ _ => 1) (fun _ _ _ => 1)).2.1 0 2 0
      = 5 :=
  (c10_additive_kv_update 1 1 1 4 (fun _ => 1) (fun _ => 1) (fun _ => 1)
      (fun _ _ _ => 5) (fun _ _ _ => 7) 7
      (fun _ _ _ => 1) (fun _ _ _ => 1) (fun _ _ _ => 1) (fun _ _ _ => 1)).2.2.2.2.2
    (by norm_num) 0 2 0 (by norm_num)

/-- C9: `dot_product_attention` applies no `1/sqrt(depth_k)` factor to its
logits; the scaling of "scaled dot-product attention" is recovered exactly by
the extra `kv_channels^-0.25` factor that `multihead_attention_params` folds
into the query/key initializer standard deviation
(`qk_stddev = v_stddev * kv_channels^-0.25`): scaling q and k by that factor
turns the unscaled kernel into the textbook scaled kernel. -/
theorem c9_unscaled_logits_scaling_folded (io kv Lkv : ℕ) (hkv : 0 < kv)
    (q k v mask : ℕ → ℕ → ℝ) :
    qkStddev io kv = vStddev io * (kv : ℝ) ^ (-(0.25 : ℝ)) ∧
    ∀ t dv,
      dotProductAttention Lkv kv
        (fun t' d => (kv : ℝ) ^ (-(0.25 : ℝ)) * q t' d)
        (fun j d => (kv : ℝ) ^ (-(0.25 : ℝ)) * k j d) v mask t dv
      = scaledDotProductAttention Lkv kv q k v mask t dv := by
  constructor
  · rfl
  · intro t dv
    have hkv' : (0 : ℝ) < (kv : ℝ) := by exact_mod_cast hkv
    have hc : ((kv : ℝ) ^ (-(0.25 : ℝ))) * ((kv : ℝ) ^ (-(0.25 : ℝ)))
        = (Real.sqrt (kv : ℝ))⁻¹ := by
      rw [← Real.rpow_add hkv']
      rw [Real.sqrt_eq_rpow, ← Real.rpow_neg (le_of_lt hkv')]
      norm_num
    have hlog : (fun t' j => (∑ d ∈ Finset.range kv,
          ((kv : ℝ) ^ (-(0.25 : ℝ)) * q t' d) * ((kv : ℝ) ^ (-(0.25 : ℝ)) * k j d))
            + mask t' j)
        = (fun t' j => (∑ d ∈ Finset.range kv, q t' d * k j d) / Real.sqrt (kv : ℝ)
            + mask t' j) := by
      funext t' j
      congr 1
      rw [div_eq_mul_inv, ← hc]
      rw [Finset.sum_mul]
      refine Finset.sum_congr rfl ?_
      intro d _
      ring
    unfold dotProductAttention scaledDotProductAttention
    rw [hlog]

/-- Witness for C9 at `kv = 9`, two memory positions. -/
theorem c9_witness :
    dotProductAttention 2 9
        (fun _ _ => (9 : ℝ) ^ (-(0.25 : ℝ)) * 1)
        (fun _ _ => (9 : ℝ) ^ (-(0.25 : ℝ)) * 1)
        (fun _ _ => 1) (fun _ _ => 0) 0 0
      = scaledDotProductAttention 2 9 (fun _ _ => 1) (fun _ _ => 1)
        (fun _ _ => 1) (fun _ _ => 0) 0 0 :=
  (c9_unscaled_logits_scaling_folded 4 9 2 (by norm_num)
    (fun _ _ => 1) (fun _ _ => 1) (fun _ _ => 1) (fun _ _ => 0)).2 0 0

/-! ## Relative-position bucket lemmas -/

theorem toInt32_nonneg {x : ℝ} (hx : 0 ≤ x) : 0 ≤ toInt32 x := by
  unfold toInt32
  rw [if_pos hx]
  exact Int.floor_nonneg.mpr hx

theorem toInt32_mono {x y : ℝ} (hxy : x ≤ y) : toInt32 x ≤ toInt32 y := by
  unfold toInt32
  by_cases hx : 0 ≤ x
  · rw [if_pos hx, if_pos (le_trans hx hxy)]
    exact Int.floor_mono hxy
  · rw [if_neg hx]
    by_cases hy : 0 ≤ y
    · rw [if_pos hy]
      have h1 : ⌈x⌉ ≤ 0 := Int.ceil_le.mpr (by exact_mod_cast le_of_not_le hx)
      have h2 : (0 : ℤ) ≤ ⌊y⌋ := Int.floor_nonneg.mpr hy
      omega
    · rw [if_neg hy]
      exact Int.ceil_mono hxy

theorem bucketLogTerm_nonneg (n : ℤ) (nb me md : ℕ) (hme : 1 ≤ me)
    (hn : (me : ℤ) ≤ n) (hmd : me < md) (hmenb : me ≤ nb) :
    0 ≤ toInt32 (bucketLogTerm n nb me md) := by
  have hmepos : (0 : ℝ) < (me : ℝ) := by exact_mod_cast hme
  have hA : 0 ≤ Real.log ((n : ℝ) / me) := by
    apply Real.log_nonneg
    rw [one_le_div hmepos]
    exact_mod_cast hn
  have hB : 0 < Real.log ((md : ℝ) / me) := by
    apply Real.log_pos
    rw [one_lt_div hmepos]
    exact_mod_cast hmd
  unfold bucketLogTerm
  refine toInt32_nonneg (mul_nonneg (div_nonneg hA hB.le) ?_)
  push_cast
  have h : (me : ℝ) ≤ (nb : ℝ) := by exact_mod_cast hmenb
  linarith

theorem bucketValIfLarge_bounds (n : ℤ) (nb me md : ℕ) (hme : 1 ≤ me)
    (hn : (me : ℤ) ≤ n) (hmd : me < md) (hnb : 1 ≤ nb) (hmenb : me < nb) :
    (me : ℤ) ≤ bucketValIfLarge n nb me md ∧
    bucketValIfLarge n nb me md ≤ (nb : ℤ) - 1 := by
  unfold bucketValIfLarge
  constructor
  · apply le_min
    · have := bucketLogTerm_nonneg n nb me md hme hn hmd (le_of_lt hmenb)
      omega
    · have h : (me : ℤ) < (nb : ℤ) := by exact_mod_cast hmenb
      omega
  · exact min_le_right _ _

theorem bucketNonneg_bounds (n : ℤ) (nb md : ℕ) (hn : 0 ≤ n) (hme : 1 ≤ nb / 2)
    (hmd : nb / 2 < md) :
    0 ≤ bucketNonneg n nb md ∧ bucketNonneg n nb md < (nb : ℤ) := by
  unfold bucketNonneg
  by_cases hsmall : n < ((nb / 2 : ℕ) : ℤ)
  · rw [if_pos hsmall]
    have hle : (nb / 2 : ℕ) ≤ nb := Nat.div_le_self _ _
    have hle' : ((nb / 2 : ℕ) : ℤ) ≤ (nb : ℤ) := by exact_mod_cast hle
    exact ⟨hn, by omega⟩
  · rw [if_neg hsmall]
    have hb := bucketValIfLarge_bounds n nb (nb / 2) md hme (by omega) hmd
      (by omega) (by omega)
    have hmepos : (0 : ℤ) ≤ ((nb / 2 : ℕ) : ℤ) := by exact_mod_cast Nat.zero_le _
    exact ⟨le_trans hmepos hb.1, by omega⟩

theorem bucketValIfLarge_mono (n1 n2 : ℤ) (nb me md : ℕ) (hme : 1 ≤ me)
    (hn1 : (me : ℤ) ≤ n1) (h12 : n1 ≤ n2) (hmd : me < md) (hmenb : me < nb) :
    bucketValIfLarge n1 nb me md ≤ bucketValIfLarge n2 nb me md := by
  unfold bucketValIfLarge
  apply min_le_min _ le_rfl
  apply add_le_add_left
  apply toInt32_mono
  unfold bucketLogTerm
  apply mul_le_mul_of_nonneg_right
  · have hmepos : (0 : ℝ) < (me : ℝ) := by exact_mod_cast hme
    have hn1pos : (0 : ℝ) < (n1 : ℝ) / me := by
      apply div_pos _ hmepos
      have h : (0 : ℤ) < n1 := by omega
      exact_mod_cast h
    have hB : 0 < Real.log ((md : ℝ) / me) := by
      apply Real.log_pos
      rw [one_lt_div hmepos]
      exact_mod_cast hmd
    refine (div_le_div_right hB).mpr ?_
    apply Real.log_le_log hn1pos
    refine (div_le_div_right hmepos).mpr ?_
    exact_mod_cast h12
  · have h : (me : ℤ) < (nb : ℤ) := by exact_mod_cast hmenb
    have h' : (0 : ℤ) ≤ (nb : ℤ) - me := by omega
    exact_mod_cast h'

theorem bucketNonneg_mono (n1 n2 : ℤ) (nb md : ℕ) (h0 : 0 ≤ n1) (h12 : n1 ≤ n2)
    (hme : 1 ≤ nb / 2) (hmd : nb / 2 < md) :
    bucketNonneg n1 nb md ≤ bucketNonneg n2 nb md := by
  unfold bucketNonneg
  by_cases h1 : n1 < ((nb / 2 : ℕ) : ℤ)
  · rw [if_pos h1]
    by_cases h2 : n2 < ((nb / 2 : ℕ) : ℤ)
    · rw [if_pos h2]
      exact h12
    · rw [if_neg h2]
      have hb := bucketValIfLarge_bounds n2 nb (nb / 2) md hme (by omega) hmd
        (by omega) (by omega)
      omega
  · rw [if_neg h1]
    have h2 : ¬(n2 < ((nb / 2 : ℕ) : ℤ)) := by omega
    rw [if_neg h2]
    exact bucketValIfLarge_mono n1 n2 nb (nb / 2) md hme (by omega) h12 hmd
      (by omega)

/-! ## Incremental-vs-batch equivalence lemmas (C1) -/

theorem softmax_sum_div (s : Finset ℕ) (e : ℕ → ℝ) (u : ℕ → ℝ) :
    (∑ j ∈ s, (Real.exp (e j) / ∑ i ∈ s, Real.exp (e i)) * u j)
      = (∑ j ∈ s, Real.exp (e j) * u j) / ∑ i ∈ s, Real.exp (e i) := by
  rw [Finset.sum_div]
  exact Finset.sum_congr rfl (fun j _ => div_mul_eq_mul_div _ _ _)

theorem attnFromLogits_eq_div (Lkv : ℕ) (logits : ℕ → ℕ → ℝ) (v : ℕ → ℕ → ℝ)
    (t dv : ℕ) :
    attnFromLogits Lkv logits v t dv
      = (∑ j ∈ Finset.range Lkv, Real.exp (logits t j) * v j dv) /
        ∑ j ∈ Finset.range Lkv, Real.exp (logits t j) := by
  unfold attnFromLogits softmax
  exact softmax_sum_div _ _ _

theorem dpaHard_eq_div (Lkv K : ℕ) (q k v : ℕ → ℕ → ℝ) (vis : ℕ → ℕ → Bool)
    (t dv : ℕ) :
    dotProductAttentionHard Lkv K q k v vis t dv
      = (∑ j ∈ (Finset.range Lkv).filter (fun j => vis t j),
          Real.exp (∑ d' ∈ Finset.range K, q t d' * k j d') * v j dv) /
        ∑ j ∈ (Finset.range Lkv).filter (fun j => vis t j),
          Real.exp (∑ d' ∈ Finset.range K, q t d' * k j d') := by
  unfold dotProductAttentionHard
  exact softmax_sum_div _ _ _

/-- After running steps `0, ..., t`, window slot `p` holds the projection of
the most recent token congruent to `p` modulo the window length — token
`t - (t - p) % n` — or the zero initialization when no token `≤ t` has been
written there (`p > t`). -/
theorem incState_succ_char (C n : ℕ) (x : ℕ → ℕ → ℝ) (w : ℕ → ℕ → ℕ → ℝ)
    (hn : 0 < n) :
    ∀ t h p d, p < n →
      incState C n x w (t + 1) h p d
        = if p ≤ t then projVec C (x (t - (t - p) % n)) w h d else 0 := by
  intro t
  induction t with
  | zero =>
    intro h p d hp
    show incStepKV C n (x 0) (incState C n x w 0) 0 w h p d = _
    unfold incStepKV incState
    by_cases hp0 : p = 0 % n
    · rw [if_pos hp0]
      have hp0' : p = 0 := by
        rw [hp0]
        exact Nat.zero_mod n
      subst hp0'
      rw [if_pos (le_refl 0)]
      simp
    · rw [if_neg hp0]
      have hne : p ≠ 0 := by
        intro hc
        exact hp0 (by rw [hc, Nat.zero_mod])
      rw [if_neg (by omega)]
  | succ t ih =>
    intro h p d hp
    show incStepKV C n (x (t + 1)) (incState C n x w (t + 1)) (t + 1) w h p d = _
    unfold incStepKV
    by_cases hpt : p = (t + 1) % n
    · rw [if_pos hpt]
      have hle : p ≤ t + 1 := by
        rw [hpt]
        exact Nat.mod_le _ _
      rw [if_pos hle]
      have hmod : (t + 1 - p) % n = 0 := by
        have hsub : t + 1 - (t + 1) % n = n * ((t + 1) / n) := by
          have hdm := Nat.div_add_mod (t + 1) n
          omega
        rw [hpt, hsub, Nat.mul_mod_right]
      rw [hmod, Nat.sub_zero]
    · rw [if_neg hpt]
      rw [ih h p d hp]
      by_cases hle : p ≤ t
      · rw [if_pos hle, if_pos (by omega)]
        have harith : t - (t - p) % n = t + 1 - (t + 1 - p) % n := by
          have hr : (t - p) % n < n := Nat.mod_lt _ hn
          have hdm := Nat.div_add_mod (t - p) n
          by_cases hcase : (t - p) % n = n - 1
          · exfalso
            apply hpt
            have hsum : t + 1 - p = n * ((t - p) / n) + n := by omega
            have hmodp : (t + 1 - p) % n = 0 := by
              rw [hsum, ← Nat.mul_succ, Nat.mul_mod_right]
            have hmq : p ≡ t + 1 [MOD n] :=
              (Nat.modEq_iff_dvd' (by omega)).mpr (Nat.dvd_of_mod_eq_zero hmodp)
            have : p % n = (t + 1) % n := hmq
            rw [← this, Nat.mod_eq_of_lt hp]
          · have h1 : t + 1 - p = n * ((t - p) / n) + ((t - p) % n + 1) := by omega
            have h2 : (t + 1 - p) % n = (t - p) % n + 1 := by
              rw [h1, Nat.mul_add_mod]
              exact Nat.mod_eq_of_lt (by omega)
            omega
        rw [harith]
      · rw [if_neg hle]
        have hgt : ¬(p ≤ t + 1) := by
          intro hc
          have hpt1 : p = t + 1 := by omega
          exact hpt (by rw [hpt1, Nat.mod_eq_of_lt (by omega)])
        rw [if_neg hgt]

/-- Slot `(t + 1 + r) % n` of the window after step `t` holds token
`t + 1 + r - n`, or the zero fill when that token index would be
negative. -/
theorem incState_slot (C n : ℕ) (hn : 0 < n) (x : ℕ → ℕ → ℝ)
    (w : ℕ → ℕ → ℕ → ℝ) (t r : ℕ) (hr : r < n) (h d : ℕ) :
    incState C n x w (t + 1) h ((t + 1 + r) % n) d
      = if t + 1 + r < n then 0 else projVec C (x (t + 1 + r - n)) w h d := by
  have hp : (t + 1 + r) % n < n := Nat.mod_lt _ hn
  rw [incState_succ_char C n x w hn t h _ d hp]
  by_cases hcase : t + 1 + r < n
  · have hphi : (t + 1 + r) % n = t + 1 + r := Nat.mod_eq_of_lt hcase
    rw [hphi, if_neg (by omega), if_pos hcase]
  · push_neg at hcase
    have hsn : t + 1 + r = (t + 1 + r - n) + n := by omega
    have hphi : (t + 1 + r) % n = (t + 1 + r - n) % n := by
      conv_lhs => rw [hsn]
      rw [Nat.add_mod_right]
    have hsle : t + 1 + r - n ≤ t := by omega
    have hple : (t + 1 + r) % n ≤ t := by
      rw [hphi]
      exact le_trans (Nat.mod_le _ _) hsle
    rw [if_pos hple, if_neg (by omega)]
    have hq := Nat.div_add_mod (t + 1 + r - n) n
    have hts : t - (t + 1 + r - n) < n := by omega
    have hsplit : t - (t + 1 + r) % n
        = (t - (t + 1 + r - n)) + n * ((t + 1 + r - n) / n) := by
      rw [hphi]
      omega
    have hmod : (t - (t + 1 + r) % n) % n = t - (t + 1 + r - n) := by
      rw [hsplit, Nat.add_mul_mod_self_left]
      exact Nat.mod_eq_of_lt hts
    rw [hmod]
    have hback : t - (t - (t + 1 + r - n)) = t + 1 + r - n := by omega
    rw [hback]

/-- The halo-augmented memory of the block containing position `t`, read at
augmented index `t % n + (W + 1 - n) + r`, holds token `t + 1 + r - n` (or
the zero fill when that would be pre-sequence). -/
theorem halo_content (n W : ℕ) (hn : 0 < n) (hbW : n ≤ W + 1) (kseq : ℕ → ℝ)
    (t r : ℕ) :
    leftHaloExchange n W kseq (t / n) (t % n + (W + 1 - n) + r)
      = if t + 1 + r < n then 0 else kseq (t + 1 + r - n) := by
  unfold leftHaloExchange
  have hdm : t / n * n + t % n = t := by
    have h := Nat.div_add_mod t n
    rw [Nat.mul_comm] at h
    exact h
  have hmlt : t % n < n := Nat.mod_lt _ hn
  rw [show t / n * n + (t % n + (W + 1 - n) + r) = t + (W + 1 - n) + r by omega]
  by_cases hc : t + 1 + r < n
  · rw [if_pos (by omega), if_pos hc]
  · rw [if_neg (by omega), if_neg hc]
    congr 1
    omega

theorem cycle_left (n t : ℕ) (hn : 0 < n) :
    ∀ r < n, ((t + 1 + r) % n + (n - (t + 1) % n)) % n = r := by
  intro r hr
  have hc : (t + 1) % n < n := Nat.mod_lt _ hn
  have h1 : (t + 1 + r) % n = ((t + 1) % n + r) % n := by
    conv_lhs => rw [Nat.add_mod]
    rw [Nat.mod_eq_of_lt hr]
  rw [h1, Nat.mod_add_mod]
  rw [show (t + 1) % n + r + (n - (t + 1) % n) = r + n by omega]
  rw [Nat.add_mod_right]
  exact Nat.mod_eq_of_lt hr

theorem cycle_right (n t : ℕ) (hn : 0 < n) :
    ∀ p < n, (t + 1 + (p + (n - (t + 1) % n)) % n) % n = p := by
  intro p hp
  have hc : (t + 1) % n < n := Nat.mod_lt _ hn
  have h1 : (t + 1 + (p + (n - (t + 1) % n)) % n) % n
      = (t + 1 + (p + (n - (t + 1) % n))) % n := by
    conv_lhs => rw [Nat.add_mod]
    conv_rhs => rw [Nat.add_mod]
    rw [Nat.mod_mod_of_dvd _ dvd_rfl]
  rw [h1]
  have hd := Nat.div_add_mod (t + 1) n
  have harr : t + 1 + (p + (n - (t + 1) % n)) = p + n * ((t + 1) / n + 1) := by
    rw [Nat.mul_add, Nat.mul_one]
    generalize hQ : n * ((t + 1) / n) = Q at hd ⊢
    omega
  rw [harr, Nat.add_mul_mod_self_left]
  exact Nat.mod_eq_of_lt hp

/-- The visible positions of the hard-masked per-block softmax at query
offset `i` are exactly the `n` consecutive augmented-memory indices starting
at `i + (W + 1 - n)` (when `n ≤ W + 1`). -/
theorem visible_filter_eq (n W i : ℕ) (hn : 0 < n) (hbW : n ≤ W + 1)
    (hi : i < n) :
    (Finset.range (W + n)).filter (fun j => localVis n W i j)
      = (Finset.range n).image (fun r => i + (W + 1 - n) + r) := by
  ext j
  simp only [Finset.mem_filter, Finset.mem_range, Finset.mem_image, localVis,
    decide_eq_true_eq]
  constructor
  · rintro ⟨hj, hvis1, hvis2⟩
    refine ⟨j - (i + (W + 1 - n)), ?_, ?_⟩
    · push_cast at hvis1 hvis2
      omega
    · push_cast at hvis1 hvis2
      omega
  · rintro ⟨r, hr, rfl⟩
    refine ⟨by omega, ?_, ?_⟩
    · push_cast
      omega
    · push_cast
      omega

/-- Reindexing of any per-position quantity between the hard-masked batch
block (visible augmented indices) and the incremental window (slots). -/
theorem visible_sum_eq_slot_sum (n W t : ℕ) (hn : 0 < n) (hbW : n ≤ W + 1)
    (F G : ℕ → ℝ)
    (hFG : ∀ r, r < n → F (t % n + (W + 1 - n) + r) = G ((t + 1 + r) % n)) :
    ∑ j ∈ (Finset.range (W + n)).filter (fun j => localVis n W (t % n) j), F j
      = ∑ p ∈ Finset.range n, G p := by
  rw [visible_filter_eq n W (t % n) hn hbW (Nat.mod_lt _ hn)]
  rw [Finset.sum_image (by intro a _ b _ hab; omega)]
  refine Finset.sum_nbij' (fun r => (t + 1 + r) % n)
    (fun p => (p + (n - (t + 1) % n)) % n) ?_ ?_ ?_ ?_ ?_
  · intro a _
    exact Finset.mem_range.mpr (Nat.mod_lt _ hn)
  · intro a _
    exact Finset.mem_range.mpr (Nat.mod_lt _ hn)
  · intro a ha
    exact cycle_left n t hn a (Finset.mem_range.mp ha)
  · intro a ha
    exact cycle_right n t hn a (Finset.mem_range.mp ha)
  · intro a ha
    exact hFG a (Finset.mem_range.mp ha)

/-- The blended window read by the incremental step at slot `(t + 1 + r) % n`
coincides with the halo-augmented batch memory at visible index
`t % n + (W + 1 - n) + r`, for any projection weight. -/
theorem content_eq (C n W : ℕ) (hn : 0 < n) (hbW : n ≤ W + 1)
    (x : ℕ → ℕ → ℝ) (w : ℕ → ℕ → ℕ → ℝ) (t h : ℕ) (r : ℕ) (hr : r < n)
    (d' : ℕ) :
    leftHaloExchange n W (fun s => projSeq C x w h s d') (t / n)
        (t % n + (W + 1 - n) + r)
      = incStepKV C n (x t) (incState C n x w t) t w h ((t + 1 + r) % n) d' := by
  rw [halo_content n W hn hbW _ t r]
  have hstep : incStepKV C n (x t) (incState C n x w t) t w
      = incState C n x w (t + 1) := rfl
  rw [hstep, incState_slot C n hn x w t r hr h d']
  rfl

/-- The per-head, per-channel core of C1: one incremental decode step at
position `t` computes exactly the hard-masked per-block attention of the
batch variant at that position, when the window length equals the block
length `n` and `n ≤ window_size + 1`. -/
theorem inc_dpa_eq_hard_dpa (C K n W : ℕ) (hn : 0 < n) (hbW : n ≤ W + 1)
    (x : ℕ → ℕ → ℝ) (wq wk wv : ℕ → ℕ → ℕ → ℝ) (t h d : ℕ) :
    dotProductAttention n K
        (fun _ d' => projVec C (x t) wq h d')
        (fun p d' => incStepKV C n (x t) (incState C n x wk t) t wk h p d')
        (fun p d' => incStepKV C n (x t) (incState C n x wv t) t wv h p d')
        (fun _ _ => 0) 0 d
      = dotProductAttentionHard (W + n) K
        (fun i d' => projSeq C x wq h (t / n * n + i) d')
        (fun j d' => leftHaloExchange n W (fun s => projSeq C x wk h s d') (t / n) j)
        (fun j d' => leftHaloExchange n W (fun s => projSeq C x wv h s d') (t / n) j)
        (localVis n W) (t % n) d := by
  have hdm : t / n * n + t % n = t := by
    have h' := Nat.div_add_mod t n
    rw [Nat.mul_comm] at h'
    exact h'
  have hq : ∀ d', projSeq C x wq h (t / n * n + t % n) d' = projVec C (x t) wq h d' := by
    intro d'
    rw [hdm]
    rfl
  have hlog : ∀ r, r < n →
      (∑ d' ∈ Finset.range K,
        projSeq C x wq h (t / n * n + t % n) d' *
          leftHaloExchange n W (fun s => projSeq C x wk h s d') (t / n)
            (t % n + (W + 1 - n) + r))
      = (∑ d' ∈ Finset.range K,
          projVec C (x t) wq h d' *
            incStepKV C n (x t) (incState C n x wk t) t wk h ((t + 1 + r) % n) d')
        + (0 : ℝ) := by
    intro r hr
    rw [add_zero]
    refine Finset.sum_congr rfl ?_
    intro d' _
    rw [hq d', content_eq C n W hn hbW x wk t h r hr d']
  unfold dotProductAttention
  rw [attnFromLogits_eq_div, dpaHard_eq_div]
  congr 1
  · refine (visible_sum_eq_slot_sum n W t hn hbW
      (fun j => Real.exp (∑ d' ∈ Finset.range K,
          projSeq C x wq h (t / n * n + t % n) d' *
            leftHaloExchange n W (fun s => projSeq C x wk h s d') (t / n) j) *
        leftHaloExchange n W (fun s => projSeq C x wv h s d) (t / n) j)
      (fun p => Real.exp ((∑ d' ∈ Finset.range K,
          projVec C (x t) wq h d' *
            incStepKV C n (x t) (incState C n x wk t) t wk h p d') + 0) *
        incStepKV C n (x t) (incState C n x wv t) t wv h p d)
      ?_).symm
    intro r hr
    dsimp only
    rw [hlog r hr, content_eq C n W hn hbW x wv t h r hr d]
  · refine (visible_sum_eq_slot_sum n W t hn hbW
      (fun j => Real.exp (∑ d' ∈ Finset.range K,
          projSeq C x wq h (t / n * n + t % n) d' *
            leftHaloExchange n W (fun s => projSeq C x wk h s d') (t / n) j))
      (fun p => Real.exp ((∑ d' ∈ Finset.range K,
          projVec C (x t) wq h d' *
            incStepKV C n (x t) (incState C n x wk t) t wk h p d') + 0))
      ?_).symm
    intro r hr
    dsimp only
    rw [hlog r hr]

/-- C1 counterexample: sequential incremental decoding does NOT reproduce the
batch `masked_local_attention_1d` output exactly, even with identical inputs,
identical projection weights and `window_length ≥ radius`.  At `L = 1`,
`window_size = 1`, `window_length = 1` (all channels, heads and weights `1`)
the batch softmax still assigns the pre-time zero-key position the weight
`exp(-1e9 + 0) > 0`, so its output at position `0` is
`exp 1 / (exp (-1e9) + exp 1) < 1`, while the incremental step returns
exactly `1`. -/
theorem c1_counterexample :
    incrementalDecode 1 1 1 1 (fun _ _ => 1) (fun _ _ _ => 1) (fun _ _ _ => 1)
        (fun _ _ _ => 1) (fun _ _ _ => 1) 0 0
      ≠ maskedLocalAttention1d 1 1 1 1 1 1 (fun _ _ => 1) (fun _ _ _ => 1)
        (fun _ _ _ => 1) (fun _ _ _ => 1) (fun _ _ _ => 1) 0 0 := by
  have hchoose : chooseBlockLength 1 1 = 1 := by decide
  have hL : incrementalDecode 1 1 1 1 (fun _ _ => (1 : ℝ)) (fun _ _ _ => 1)
      (fun _ _ _ => 1) (fun _ _ _ => 1) (fun _ _ _ => 1) 0 0 = 1 := by
    unfold incrementalDecode maskedLocalAttention1dIncremental
      dotProductAttention attnFromLogits softmax incStepKV incState projVec
    norm_num [Finset.sum_range_one]
  have hR : maskedLocalAttention1d 1 1 1 1 1 1 (fun _ _ => (1 : ℝ))
      (fun _ _ _ => 1) (fun _ _ _ => 1) (fun _ _ _ => 1) (fun _ _ _ => 1) 0 0
      = Real.exp 1 / (Real.exp (-1e9) + Real.exp 1) := by
    unfold maskedLocalAttention1d dotProductAttention attnFromLogits softmax
      leftHaloExchange localAttentionMask projSeq projVec
    rw [hchoose]
    norm_num [Finset.sum_range_one, Finset.sum_range_succ]
  rw [hL, hR]
  have h1 : (0 : ℝ) < Real.exp (-1e9) := Real.exp_pos _
  have h2 : (0 : ℝ) < Real.exp 1 := Real.exp_pos _
  intro hcontra
  rw [eq_comm, div_eq_one_iff_eq (by positivity)] at hcontra
  linarith

/-- C1 (amended): with the `-1e9` additive bias of the batch variant
idealized as hard masking (masked positions dropped from the softmax), and
with the incremental window length equal to the block length chosen by the
partitioner and that block length at most `window_size + 1` (as holds e.g.
whenever `window_size ≥ 128`), running
`masked_local_attention_1d_incremental` sequentially for `t = 0, 1, ...` from
the zero-initialized state reproduces, at every position `t < L` and for
identical inputs and identical projection weights, exactly the per-position
output of the batch `masked_local_attention_1d` — the same masking policy at
every position. -/
theorem c1_incremental_matches_hard_masked_batch
    (C K H W L : ℕ) (x : ℕ → ℕ → ℝ) (wq wk wv wo : ℕ → ℕ → ℕ → ℝ)
    (n : ℕ) (hn : n = chooseBlockLength W L)
    (hbW : chooseBlockLength W L ≤ W + 1)
    (t : ℕ) (ht : t < L) (c : ℕ) :
    incrementalDecode C K H n x wq wk wv wo t c
      = maskedLocalAttention1dHard C K H W L L x wq wk wv wo t c := by
  have hL : 0 < L := by omega
  have hpos : 0 < chooseBlockLength W L :=
    (chooseBlockLengthAux_spec L hL (max W 128) (by omega)).1
  subst hn
  unfold incrementalDecode maskedLocalAttention1dIncremental
    maskedLocalAttention1dHard
  dsimp only
  refine Finset.sum_congr rfl ?_
  intro h _
  refine Finset.sum_congr rfl ?_
  intro d _
  congr 1
  exact inc_dpa_eq_hard_dpa C K (chooseBlockLength W L) W hpos hbW x wq wk wv t h d

/-- Witness for C1 at `L = 4`, `window_size = 4` (block length 4, two decode
steps already taken), constant inputs and weights. -/
theorem c1_witness :
    incrementalDecode 1 1 1 4 (fun _ _ => 1) (fun _ _ _ => 1) (fun _ _ _ => 1)
        (fun _ _ _ => 1) (fun _ _ _ => 1) 2 0
      = maskedLocalAttention1dHard 1 1 1 4 4 4 (fun _ _ => 1) (fun _ _ _ => 1)
        (fun _ _ _ => 1) (fun _ _ _ => 1) (fun _ _ _ => 1) 2 0 :=
  c1_incremental_matches_hard_masked_batch 1 1 1 4 4 (fun _ _ => 1)
    (fun _ _ _ => 1) (fun _ _ _ => 1) (fun _ _ _ => 1) (fun _ _ _ => 1)
    4 (by decide) (by decide) 2 (by norm_num) 0

/-- C6 counterexample: `_relative_position_bucket` does not stay inside
`[0, num_buckets)` for every `max_distance > 0`.  At
`relative_position = -6`, unidirectional, `num_buckets = 4`,
`max_distance = 1` the logarithm base `max_distance / max_exact = 1/2` is
below one, the logarithmic branch goes negative, and the bucket is `-1`. -/
theorem c6_counterexample :
    relativePositionBucket (-6) false 4 1 = -1 ∧
    ¬(0 ≤ relativePositionBucket (-6) false 4 1 ∧
      relativePositionBucket (-6) false 4 1 < ((4 : ℕ) : ℤ)) := by
  have hB : (0 : ℝ) < Real.log 2 := Real.log_pos (by norm_num)
  have hA : (0 : ℝ) < Real.log 3 := Real.log_pos (by norm_num)
  have h89 : Real.log 8 ≤ Real.log 9 := Real.log_le_log (by norm_num) (by norm_num)
  have h916 : Real.log 9 < Real.log 16 := Real.log_lt_log (by norm_num) (by norm_num)
  have h8 : Real.log 8 = 3 * Real.log 2 := by
    rw [show (8 : ℝ) = 2 ^ (3 : ℕ) by norm_num, Real.log_pow]
    norm_num
  have h9 : Real.log 9 = 2 * Real.log 3 := by
    rw [show (9 : ℝ) = 3 ^ (2 : ℕ) by norm_num, Real.log_pow]
    norm_num
  have h16 : Real.log 16 = 4 * Real.log 2 := by
    rw [show (16 : ℝ) = 2 ^ (4 : ℕ) by norm_num, Real.log_pow]
    norm_num
  have hterm : bucketLogTerm 6 4 2 1 = -(2 * Real.log 3 / Real.log 2) := by
    unfold bucketLogTerm
    have e1 : ((6 : ℤ) : ℝ) / ((2 : ℕ) : ℝ) = 3 := by norm_num
    have e2 : ((1 : ℕ) : ℝ) / ((2 : ℕ) : ℝ) = 2⁻¹ := by norm_num
    rw [e1, e2, Real.log_inv]
    have e3 : (((4 : ℤ) - ((2 : ℕ) : ℤ) : ℤ) : ℝ) = 2 := by norm_num
    push_cast
    rw [div_neg]
    ring
  have hxneg : -(2 * Real.log 3 / Real.log 2) < 0 := by
    have : 0 < 2 * Real.log 3 / Real.log 2 := by positivity
    linarith
  have hceil : toInt32 (-(2 * Real.log 3 / Real.log 2)) = -3 := by
    unfold toInt32
    rw [if_neg (by linarith)]
    rw [Int.ceil_eq_iff]
    constructor
    · push_cast
      have h4 : 2 * Real.log 3 / Real.log 2 < 4 := by
        rw [div_lt_iff hB]
        rw [← h9, ← h16]
        exact h916
      linarith
    · push_cast
      have h3' : (3 : ℝ) ≤ 2 * Real.log 3 / Real.log 2 := by
        rw [le_div_iff hB]
        rw [← h9, ← h8]
        exact h89
      linarith
  have h4 : bucketValIfLarge 6 4 2 1 = -1 := by
    unfold bucketValIfLarge
    rw [hterm, hceil]
    decide
  have hval : relativePositionBucket (-6) false 4 1 = -1 := by
    unfold relativePositionBucket
    simp only [Bool.false_eq_true, if_false]
    rw [show (max (-(-6 : ℤ)) 0) = 6 by norm_num]
    unfold bucketNonneg
    rw [if_neg (by norm_num)]
    rw [show (4 / 2 : ℕ) = 2 by norm_num]
    exact h4
  refine ⟨hval, ?_⟩
  intro hcl
  rw [hval] at hcl
  norm_num at hcl

/-- C6 (amended): for every relative position and both bidirectional modes,
with `num_buckets ≥ 2`, with the `max_exact` threshold of the chosen mode
(`(num_buckets/2)/2` bidirectional, `num_buckets/2` unidirectional) at least
`1` — bidirectional `num_buckets ∈ {2, 3}` is excluded: there `max_exact = 0`
and the source instead raises `ZeroDivisionError` at
`math.log(max_distance / max_exact)` for every input — and with
`max_distance` strictly greater than that threshold (the regime of the
function's defaults), the bucket lies in `[0, num_buckets)`, arbitrarily
large offsets being clipped to the extreme buckets. -/
theorem c6_bucket_range (rp : ℤ) (bidir : Bool) (numBuckets maxDistance : ℕ)
    (hnb : 2 ≤ numBuckets)
    (hme : 1 ≤ (if bidir then numBuckets / 2 else numBuckets) / 2)
    (hmd : (if bidir then numBuckets / 2 else numBuckets) / 2 < maxDistance) :
    0 ≤ relativePositionBucket rp bidir numBuckets maxDistance ∧
    relativePositionBucket rp bidir numBuckets maxDistance < (numBuckets : ℤ) := by
  unfold relativePositionBucket
  cases bidir with
  | false =>
    simp only [Bool.false_eq_true, if_false]
    have hmd' : numBuckets / 2 < maxDistance := by simpa using hmd
    exact bucketNonneg_bounds (max (-rp) 0) numBuckets maxDistance
      (le_max_right _ _) (by omega) hmd'
  | true =>
    simp only [if_true]
    have hme' : 1 ≤ numBuckets / 2 / 2 := by simpa using hme
    have hmd' : numBuckets / 2 / 2 < maxDistance := by simpa using hmd
    have hb := bucketNonneg_bounds |(-rp)| (numBuckets / 2) maxDistance
      (abs_nonneg _) hme' hmd'
    have h2 : ((numBuckets / 2 : ℕ) : ℤ) * 2 ≤ (numBuckets : ℤ) := by
      exact_mod_cast Nat.div_mul_le_self numBuckets 2
    have hb1 := hb.1
    have hb2 := hb.2
    by_cases hside : -rp < 0
    · rw [if_pos hside]
      omega
    · rw [if_neg hside]
      omega

/-- Witness for C6 at a large negative offset in bidirectional mode with the
default `num_buckets = 32`, `max_distance = 128`. -/
theorem c6_witness :
    0 ≤ relativePositionBucket (-1000000) true 32 128 ∧
    relativePositionBucket (-1000000) true 32 128 < ((32 : ℕ) : ℤ) :=
  c6_bucket_range (-1000000) true 32 128 (by norm_num) (by decide) (by decide)

/-- C7: at the source's default `num_buckets = 32`, `max_distance = 128`, the
bucket function is monotone non-decreasing over non-negative offsets
`0 ≤ a < b`, in both bidirectional and unidirectional modes (linear in the
exact region, logarithmic and clipped beyond it). -/
theorem c7_bucket_monotone (bidir : Bool) (a b : ℤ) (ha : 0 ≤ a) (hab : a < b) :
    relativePositionBucket a bidir 32 128 ≤ relativePositionBucket b bidir 32 128 := by
  unfold relativePositionBucket
  cases bidir with
  | false =>
    simp only [Bool.false_eq_true, if_false]
    have hma : max (-a) 0 = 0 := max_eq_right (by omega)
    have hmb : max (-b) 0 = 0 := max_eq_right (by omega)
    rw [hma, hmb]
  | true =>
    simp only [if_true]
    have habsa : |(-a)| = a := by rw [abs_neg]; exact abs_of_nonneg ha
    have habsb : |(-b)| = b := by rw [abs_neg]; exact abs_of_nonneg (by omega)
    rw [habsa, habsb]
    rw [if_pos (by omega : -b < 0)]
    by_cases hA : -a < 0
    · rw [if_pos hA]
      apply add_le_add_left
      exact bucketNonneg_mono a b (32 / 2) 128 ha (le_of_lt hab) (by norm_num)
        (by norm_num)
    · rw [if_neg hA]
      have ha0 : a = 0 := by omega
      subst ha0
      have h1 : bucketNonneg 0 (32 / 2) 128 = 0 := by
        unfold bucketNonneg
        rw [if_pos (by norm_num)]
      rw [h1]
      have h2 := bucketNonneg_bounds b (32 / 2) 128 (by omega) (by norm_num)
        (by norm_num)
      have h21 := h2.1
      have h3 : (0 : ℤ) ≤ ((32 / 2 : ℕ) : ℤ) := by norm_num
      omega

/-- Witness for C7 at `a = 3 < b = 50`, bidirectional. -/
theorem c7_witness :
    relativePositionBucket 3 true 32 128 ≤ relativePositionBucket 50 true 32 128 :=
  c7_bucket_monotone true 3 50 (by norm_num) (by norm_num)

end MeshAttention
